import Mathlib

/-!
Shallow embedding of the vscode-extension-helm downloader (src/extension.rs,
src/server.rs, src/main.rs).  Rust strings are modelled as `List Char`
(UTF-8 byte-wise `cmp` on Rust strings coincides with code-point
lexicographic order on the character lists, because UTF-8 is
order-preserving).  Filesystem and network effects are modelled by explicit
parameters (existence flags, the decoded marketplace response) and by an
explicit trace of emitted effects.
-/

/-- Rust `String` / `&str`, modelled as its list of characters. -/
abbrev Str := List Char

/-- Boolean lexicographic order on character lists; this is the order
underlying Rust's `String::cmp` used by `sort_by` in `list_extensions`. -/
def str_le : Str → Str → Bool
  | [], _ => true
  | _ :: _, [] => false
  | c :: cs, d :: ds => if c = d then str_le cs ds else decide (c < d)

/-- The `Extension` struct of src/extension.rs. -/
structure Extension where
  publisher : Str
  package : Str
  version : Option Str
  platform : Option Str
deriving DecidableEq, Repr

/-- The free function `get_extension_name` of src/extension.rs: canonical
display name `publisher.package[@version][=platform]`. -/
def get_extension_name (publisher package : Str) (version platform : Option Str) : Str :=
  let ext_name := publisher ++ ('.' :: package)
  let ext_name := match version with
    | some val => ext_name ++ ('@' :: val)
    | none => ext_name
  match platform with
  | some val => ext_name ++ ('=' :: val)
  | none => ext_name

/-- The method `Extension::get_extension_name` of src/extension.rs (called
`name` here so the wrapper can refer to the free function unambiguously). -/
def Extension.name (e : Extension) : Str :=
  get_extension_name e.publisher e.package e.version e.platform

/-- The helper `strip_suffix(line, mark)` nested in `list_extensions`
(src/extension.rs).  It uses `line.find(mark)`, i.e. the FIRST occurrence
of the mark; every call site passes a single-character mark, so the mark is
modelled as a `Char`.  Returns the part before the first occurrence and,
when the mark occurs, the part after it. -/
def strip_suffix (line : Str) (mark : Char) : Str × Option Str :=
  match line with
  | [] => ([], none)
  | c :: rest =>
    if c = mark then ([], some rest)
    else (c :: (strip_suffix rest mark).1, (strip_suffix rest mark).2)

/-- Rust `str::ends_with(pat)` on the model. -/
def ends_with (s pat : Str) : Bool :=
  decide (pat.length ≤ s.length) && decide (s.drop (s.length - pat.length) = pat)

/-- The literal suffix `".vsix"`. -/
def vsix : Str := ['.', 'v', 's', 'i', 'x']

/-- Rust `ext_line.strip_suffix(".vsix")` with the `None => ext_line`
fallback, as in `parse_ext_line` (src/extension.rs). -/
def strip_dot_vsix (s : Str) : Str :=
  if ends_with s vsix then s.take (s.length - vsix.length) else s

/-- Rust `char::is_whitespace`: the Unicode White_Space property
(U+0009..U+000D, U+0020, U+0085, U+00A0, U+1680, U+2000..U+200A, U+2028,
U+2029, U+202F, U+205F, U+3000). -/
def rust_is_whitespace (c : Char) : Bool :=
  c.val == 0x09 || c.val == 0x0A || c.val == 0x0B || c.val == 0x0C || c.val == 0x0D ||
  c.val == 0x20 || c.val == 0x85 || c.val == 0xA0 || c.val == 0x1680 ||
  (decide (0x2000 ≤ c.val) && decide (c.val ≤ 0x200A)) || c.val == 0x2028 ||
  c.val == 0x2029 || c.val == 0x202F || c.val == 0x205F || c.val == 0x3000

/-- Rust `str::trim`: the Unicode White_Space characters removed at both
ends. -/
def trim (s : Str) : Str :=
  ((s.dropWhile rust_is_whitespace).reverse.dropWhile rust_is_whitespace).reverse

/-- The helper `parse_ext_line` nested in `list_extensions`
(src/extension.rs): trim, drop a trailing ".vsix", split at the first `=`
for the platform, then at the first `@` for the version, then at the first
`.` for publisher/package; no `.` means no specifier. -/
def parse_ext_line (ext_line : Str) : Option Extension :=
  let l0 := trim ext_line
  let l1 := strip_dot_vsix l0
  let p1 := strip_suffix l1 '='
  let p2 := strip_suffix p1.1 '@'
  let p3 := strip_suffix p2.1 '.'
  match p3.2 with
  | none => none
  | some package => some ⟨p3.1, package, p2.2, p1.2⟩

/-- The comparison relation of `result.sort_by(|a, b| a.get_extension_name()
.cmp(&b.get_extension_name()))` in `list_extensions`. -/
def name_le (a b : Extension) : Prop := str_le a.name b.name = true

instance : DecidableRel name_le := fun a b => by
  unfold name_le; infer_instance

/-- Helper for `dedup_by_key`: `prev` is the last retained element; a
following element whose canonical name equals `prev`'s is dropped
(Rust `Vec::dedup_by_key` keeps the first of each run). -/
def dedup_aux (prev : Extension) : List Extension → List Extension
  | [] => []
  | b :: rest =>
    if b.name = prev.name then dedup_aux prev rest
    else b :: dedup_aux b rest

/-- Rust `result.dedup_by_key(|x| x.get_extension_name())` in
`list_extensions`: removes all but the first of consecutive elements with
the same canonical name. -/
def dedup_by_key : List Extension → List Extension
  | [] => []
  | a :: rest => a :: dedup_aux a rest

/-- The function `list_extensions` of src/extension.rs, restricted to
inline tokens (the branch where a token does not name an existing file, so
it is fed to `parse_ext_line`; a failed parse pushes nothing).  The
file-reading branches feed the same accumulation list, and the final
stable sort by canonical name (modelled by the stable `insertionSort`,
extensionally equal to Rust's stable `sort_by`) and the consecutive
deduplication are shared by all branches. -/
def list_extensions (extensions : List Str) : List Extension :=
  let result := extensions.filterMap parse_ext_line
  dedup_by_key (List.insertionSort name_le result)

/-- One element of the `versions` array of the marketplace response, as
read by `Extension::query_version`: `ver_data.get("version")` /
`ver_data.get("targetPlatform")` as strings, `none` when the field is
absent or not a string. -/
structure VerEntry where
  version : Option Str
  targetPlatform : Option Str
deriving DecidableEq, Repr

/-- The version-matching step of the loop in `Extension::query_version`
(src/extension.rs lines 126-137): `none` means `continue` (skip the
entry), `some v` is the matched version string. -/
def step_version (sv : Option Str) (entryVersion : Option Str) : Option Str :=
  match sv, entryVersion with
  | some v1, some v2 => if v1 ≠ v2 then none else some v2
  | _, none => none
  | _, some v2 => some v2

/-- Outcome of the platform-matching step: skip the entry, or return from
the loop with the given platform. -/
inductive StepP where
  | skip : StepP
  | accept : Option Str → StepP
deriving DecidableEq, Repr

/-- The platform-matching step of the loop in `Extension::query_version`
(src/extension.rs lines 138-151).  The wildcard arm of the Rust `match`
covers exactly the two cases where the entry has no `targetPlatform`. -/
def step_platform (sp : Option Str) (entryPlatform : Option Str) : StepP :=
  match sp, entryPlatform with
  | some v1, some v2 => if v1 ≠ v2 then StepP.skip else StepP.accept (some v2)
  | none, some _ => StepP.skip
  | _, none => StepP.accept none

/-- The scanning loop of `Extension::query_version` over the `versions`
array (src/extension.rs lines 122-153): first entry passing both steps is
returned; a fully traversed list yields `(none, none)`. -/
def scan_versions (sv sp : Option Str) : List VerEntry → Option Str × Option Str
  | [] => (none, none)
  | e :: rest =>
    match step_version sv e.version with
    | none => scan_versions sv sp rest
    | some v =>
      match step_platform sp e.targetPlatform with
      | StepP.skip => scan_versions sv sp rest
      | StepP.accept p => (some v, p)

/-- The method `Extension::query_version` (src/extension.rs lines
117-162), with the network reply abstracted: `versions` is
`all_data.get("versions").as_array()` of the marketplace response (`none`
when absent or not an array).  A scan that finds no version yields the
descriptive error. -/
def query_version (e : Extension) (versions : Option (List VerEntry)) :
    Except Str (Option Str × Option Str) :=
  let vp := match versions with
    | none => ((none : Option Str), (none : Option Str))
    | some x => scan_versions e.version e.platform x
  match vp.1 with
  | none =>
    Except.error ("query extension ".toList ++
      get_extension_name e.publisher e.package none none ++ " for version failed".toList)
  | some v => Except.ok (some v, vp.2)

/-- The platform whitelist of `Extension::check_platform`
(src/extension.rs lines 38-71); the check passes when no platform is
pinned or the pinned platform is in the list. -/
def valid_platforms : List Str :=
  ["win32-x64".toList, "win32-ia32".toList, "win32-arm64".toList,
   "linux-x64".toList, "linux-arm64".toList, "linux-armhf".toList,
   "darwin-x64".toList, "darwin-arm64".toList, "alpine-x64".toList,
   "web".toList, "alpine-arm64".toList]

/-- The method `Extension::check_platform` as a boolean (the Rust method
returns `Ok`/`Err` on this condition). -/
def check_platform (e : Extension) : Bool :=
  match e.platform with
  | none => true
  | some platform => valid_platforms.any (fun x => platform = x)

/-- Network effects of one `Extension::download` call: the marketplace
version query, and the artifact fetch performed by `download_extension`. -/
inductive NetEffect where
  | query : NetEffect
  | fetch : NetEffect
deriving DecidableEq, Repr

/-- Rust `std::path::MAIN_SEPARATOR`, fixed to the Unix value. -/
def MAIN_SEPARATOR : Char := '/'

/-- Destination path built by `Extension::download`:
`format!("{}{}{}.vsix", download_dir, MAIN_SEPARATOR, ext_name)`. -/
def output_file_of (download_dir : Str) (ext_name : Str) : Str :=
  download_dir ++ [MAIN_SEPARATOR] ++ ext_name ++ ".vsix".toList

/-- The method `Extension::download` (src/extension.rs lines 73-115) with
its effects made explicit: `versions` is the marketplace response that a
`query_version` call would consume, `fs_exists` tells which paths exist,
`fetchOk` is the outcome of the `download_extension` subprocess fetch.
Returns the Rust `Result<bool>` (`Ok true` = downloaded, `Ok false` =
skipped because cached) together with the trace of network effects in
order. -/
def Extension.download (e : Extension) (download_dir : Str) (cached? : Option Bool)
    (versions : Option (List VerEntry)) (fs_exists : Str → Bool) (fetchOk : Bool) :
    Except Str Bool × List NetEffect :=
  let cached := match cached? with
    | some val => val
    | none => true
  if check_platform e = false then
    (Except.error ("invalid platform".toList), [])
  else
    let ext_name := e.name
    let resolved : Except Str (Str × Option Str) × List NetEffect :=
      match e.version with
      | some v => (Except.ok (v, e.platform), [])
      | none =>
        match query_version e versions with
        | Except.error m => (Except.error m, [NetEffect.query])
        | Except.ok (v?, p) =>
          match v? with
          | some v => (Except.ok (v, p), [NetEffect.query])
          | none =>
            (Except.error ("query version for ".toList ++ ext_name ++ " failed".toList),
             [NetEffect.query])
    match resolved with
    | (Except.error m, effs) => (Except.error m, effs)
    | (Except.ok _, effs) =>
      let out := output_file_of download_dir ext_name
      if cached && fs_exists out then (Except.ok false, effs)
      else
        if fetchOk then (Except.ok true, effs ++ [NetEffect.fetch])
        else (Except.error ("download failed".toList), effs ++ [NetEffect.fetch])

/-- A filesystem path as its list of components (`PathBuf::join` appends a
component). -/
abbrev FsPath := List Str

/-- Filesystem / extraction actions emitted by `prepare_release_dir`. -/
inductive FsAction where
  | remove_dir_all : FsPath → FsAction
  | create_dir_all : FsPath → FsAction
  | extract_tgz : Str → FsPath → FsAction
  | extract_zip : Str → FsPath → FsAction
deriving DecidableEq, Repr

/-- The function `prepare_release_dir` of src/server.rs (lines 136-161)
with effects made explicit: `dirExists` is whether `<output_dir>/bin/
<commit>` exists on entry (after a `remove_dir_all` it no longer exists,
so `create_dir_all` always runs), `extractOk` is the outcome of whichever
extractor is invoked.  Dispatch is by the archive file name's suffix. -/
def prepare_release_dir (commit archive_file output_dir : Str) (dirExists : Bool)
    (extractOk : Bool) : Except Str Unit × List FsAction :=
  let bin_dir : FsPath := [output_dir, "bin".toList]
  let commit_dir : FsPath := bin_dir ++ [commit]
  let acts0 := if dirExists then [FsAction.remove_dir_all commit_dir] else []
  let acts1 := acts0 ++ [FsAction.create_dir_all commit_dir]
  if ends_with archive_file (".tar.gz".toList) then
    ((if extractOk then Except.ok () else Except.error ("extract failed".toList)),
     acts1 ++ [FsAction.extract_tgz archive_file commit_dir])
  else if ends_with archive_file (".zip".toList) then
    ((if extractOk then Except.ok () else Except.error ("extract failed".toList)),
     acts1 ++ [FsAction.extract_zip archive_file commit_dir])
  else
    (Except.error ("unable to extract file ".toList ++ archive_file), acts1)

/-- The OS mapping table `valid_map_p` of `get_platform_info`
(src/server.rs lines 13-18). -/
def valid_map_p : List (Str × Str) :=
  [("linux".toList, "linux".toList), ("windows".toList, "win32".toList),
   ("macos".toList, "darwin".toList), ("alpine".toList, "alpine".toList)]

/-- The architecture mapping table `valid_map_a` of `get_platform_info`
(src/server.rs line 19). -/
def valid_map_a : List (Str × Str) :=
  [("x86_64".toList, "x64".toList), ("aarch64".toList, "arm64".toList),
   ("arm".toList, "armhf".toList)]

/-- The replace-on-first-match loop of `get_platform_info`: the first
table key equal to the host identifier replaces it; otherwise the
identifier passes through unchanged. -/
def map_through (table : List (Str × Str)) (key : Str) : Str :=
  match table.find? (fun kv => decide (kv.1 = key)) with
  | some kv => kv.2
  | none => key

/-- The function `get_platform_info` of src/server.rs (lines 12-47), with
the host identifiers `env::consts::OS` / `env::consts::ARCH` passed
explicitly. -/
def get_platform_info (platform arch : Option Str) (host_os host_arch : Str) : Str × Str :=
  (match platform with
   | some v => v
   | none => map_through valid_map_p host_os,
   match arch with
   | some v => v
   | none => map_through valid_map_a host_arch)

/-- The download prefix computed in `download_server` (src/main.rs lines
73-76): `cli-{platform}` for alpine, otherwise `server-{platform}`. -/
def server_prefix_of (platform : Str) : Str :=
  if platform = "alpine".toList then "cli-".toList ++ platform
  else "server-".toList ++ platform

/-! ### Helper lemmas about the string primitives -/

theorem strip_suffix_not_mem {mark : Char} :
    ∀ {l : Str}, mark ∉ l → strip_suffix l mark = (l, none) := by
  intro l h
  induction l with
  | nil => rfl
  | cons c rest ih =>
    have hc : ¬ c = mark := by
      intro e
      exact h (by simp [e])
    have hr : mark ∉ rest := fun hm => h (List.mem_cons_of_mem _ hm)
    simp [strip_suffix, hc, ih hr]

theorem strip_suffix_append {mark : Char} (b : Str) :
    ∀ {a : Str}, mark ∉ a → strip_suffix (a ++ mark :: b) mark = (a, some b) := by
  intro a h
  induction a with
  | nil => simp [strip_suffix]
  | cons c rest ih =>
    have hc : ¬ c = mark := by
      intro e
      exact h (by simp [e])
    have hr : mark ∉ rest := fun hm => h (List.mem_cons_of_mem _ hm)
    simp [strip_suffix, hc, ih hr]

theorem mem_strip_suffix_fst {mark x : Char} :
    ∀ {l : Str}, x ∈ (strip_suffix l mark).1 → x ∈ l := by
  intro l
  induction l with
  | nil => simp [strip_suffix]
  | cons c rest ih =>
    by_cases hc : c = mark
    · simp [strip_suffix, hc]
    · intro hx
      simp only [strip_suffix, if_neg hc] at hx
      rcases List.mem_cons.mp hx with h | h
      · simp [h]
      · exact List.mem_cons_of_mem _ (ih h)

theorem not_mem_strip_suffix_fst {mark : Char} :
    ∀ (l : Str), mark ∉ (strip_suffix l mark).1 := by
  intro l
  induction l with
  | nil => simp [strip_suffix]
  | cons c rest ih =>
    by_cases hc : c = mark
    · simp [strip_suffix, hc]
    · intro hx
      simp only [strip_suffix, if_neg hc] at hx
      rcases List.mem_cons.mp hx with h | h
      · exact hc h.symm
      · exact ih h

theorem mem_trim {x : Char} {s : Str} (h : x ∈ trim s) : x ∈ s := by
  unfold trim at h
  have h1 := List.mem_reverse.mp h
  have h2 := ((List.dropWhile_sublist _).mem h1)
  have h3 := List.mem_reverse.mp h2
  exact (List.dropWhile_sublist _).mem h3

theorem dropWhile_eq_self_of_head {p : Char → Bool} {s : Str}
    (h : ∀ c, s.head? = some c → p c = false) : s.dropWhile p = s := by
  cases s with
  | nil => rfl
  | cons a t =>
    rw [List.dropWhile_cons]
    simp [h a rfl]

/-- Rust's trim only touches the ends: it is the identity as soon as the
first and last characters are not whitespace. -/
theorem trim_eq_self_of_ends {s : Str}
    (h1 : ∀ c, s.head? = some c → rust_is_whitespace c = false)
    (h2 : ∀ c, s.getLast? = some c → rust_is_whitespace c = false) : trim s = s := by
  unfold trim
  rw [dropWhile_eq_self_of_head h1]
  rw [dropWhile_eq_self_of_head
    (fun c hc => h2 c (by rwa [List.head?_reverse] at hc))]
  exact List.reverse_reverse s

theorem ends_with_iff {s pat : Str} : ends_with s pat = true ↔ pat <:+ s := by
  constructor
  · intro h
    unfold ends_with at h
    have h2 : s.drop (s.length - pat.length) = pat := by
      have := (Bool.and_eq_true _ _).mp h
      exact of_decide_eq_true this.2
    refine ⟨s.take (s.length - pat.length), ?_⟩
    have h3 := List.take_append_drop (s.length - pat.length) s
    rw [h2] at h3
    exact h3
  · rintro ⟨t, rfl⟩
    unfold ends_with
    have hlen : (t ++ pat).length - pat.length = t.length := by
      simp
    rw [hlen, List.drop_left]
    simp

theorem suffix_of_suffix_length_le {s t l : Str} (hs : s <:+ l) (ht : t <:+ l)
    (hlen : s.length ≤ t.length) : s <:+ t := by
  obtain ⟨u, hu⟩ := hs
  obtain ⟨v, hv⟩ := ht
  have hsu : l.drop u.length = s := by rw [← hu]; exact List.drop_left u s
  have htv : l.drop v.length = t := by rw [← hv]; exact List.drop_left v t
  have hul : u.length + s.length = l.length := by rw [← hu]; simp
  have hvl : v.length + t.length = l.length := by rw [← hv]; simp
  have hvu : v.length ≤ u.length := by omega
  have key : t.drop (u.length - v.length) = s := by
    rw [← htv, List.drop_drop]
    have heq2 : v.length + (u.length - v.length) = u.length := by omega
    rw [heq2, hsu]
  exact ⟨t.take (u.length - v.length), by rw [← key]; exact List.take_append_drop _ t⟩

theorem suffix_comparable {s t l : Str} (hs : s <:+ l) (ht : t <:+ l) :
    s <:+ t ∨ t <:+ s := by
  rcases Nat.le_total s.length t.length with h | h
  · exact Or.inl (suffix_of_suffix_length_le hs ht h)
  · exact Or.inr (suffix_of_suffix_length_le ht hs h)

theorem ends_with_vsix_false {A plat : Str} (hdot : '.' ∉ plat) :
    ends_with (A ++ '=' :: plat) vsix = false := by
  cases hb : ends_with (A ++ '=' :: plat) vsix with
  | false => rfl
  | true =>
    exfalso
    have h1 : vsix <:+ A ++ '=' :: plat := ends_with_iff.mp hb
    have h2 : '=' :: plat <:+ A ++ '=' :: plat := ⟨A, rfl⟩
    rcases suffix_comparable h1 h2 with h | h
    · have hmem : '.' ∈ ('=' :: plat) := h.sublist.mem (by decide)
      rcases List.mem_cons.mp hmem with h' | h'
      · exact absurd h' (by decide)
      · exact hdot h'
    · have hmem : '=' ∈ vsix := h.sublist.mem (by simp)
      exact absurd hmem (by decide)

theorem str_le_refl : ∀ (s : Str), str_le s s = true := by
  intro s
  induction s with
  | nil => rfl
  | cons c cs ih => simp [str_le, ih]

theorem str_le_total : ∀ (a b : Str), str_le a b = true ∨ str_le b a = true := by
  intro a
  induction a with
  | nil => intro b; left; rfl
  | cons c cs ih =>
    intro b
    cases b with
    | nil => right; rfl
    | cons d ds =>
      by_cases hcd : c = d
      · subst hcd
        rcases ih ds with h | h
        · left; simpa [str_le] using h
        · right; simpa [str_le] using h
      · rcases lt_or_gt_of_ne hcd with h | h
        · left; simp [str_le, hcd, h]
        · right
          have hdc : ¬ d = c := fun e => hcd e.symm
          simp [str_le, hdc, h]

theorem str_le_trans : ∀ {a b c : Str},
    str_le a b = true → str_le b c = true → str_le a c = true := by
  intro a
  induction a with
  | nil => intro b c _ _; rfl
  | cons x xs ih =>
    intro b c hab hbc
    cases b with
    | nil => simp [str_le] at hab
    | cons y ys =>
      cases c with
      | nil => simp [str_le] at hbc
      | cons z zs =>
        by_cases hxy : x = y <;> by_cases hyz : y = z
        · rw [str_le, if_pos hxy] at hab
          rw [str_le, if_pos hyz] at hbc
          rw [str_le, if_pos (hxy.trans hyz)]
          exact ih hab hbc
        · rw [str_le, if_pos hxy] at hab
          rw [str_le, if_neg hyz] at hbc
          have hxz : ¬ x = z := fun e => hyz (hxy.symm.trans e)
          rw [str_le, if_neg hxz, hxy]
          exact hbc
        · rw [str_le, if_neg hxy] at hab
          have hxz : ¬ x = z := fun e => hxy (e.trans hyz.symm)
          rw [str_le, if_neg hxz, ← hyz]
          exact hab
        · rw [str_le, if_neg hxy] at hab
          rw [str_le, if_neg hyz] at hbc
          have h1 : x < y := of_decide_eq_true hab
          have h2 : y < z := of_decide_eq_true hbc
          have h3 : x < z := lt_trans h1 h2
          have hxz : ¬ x = z := ne_of_lt h3
          rw [str_le, if_neg hxz]
          exact decide_eq_true h3

theorem str_le_antisymm : ∀ {a b : Str},
    str_le a b = true → str_le b a = true → a = b := by
  intro a
  induction a with
  | nil =>
    intro b _ hba
    cases b with
    | nil => rfl
    | cons d ds => simp [str_le] at hba
  | cons c cs ih =>
    intro b hab hba
    cases b with
    | nil => simp [str_le] at hab
    | cons d ds =>
      by_cases hcd : c = d
      · subst hcd
        simp only [str_le, if_pos rfl] at hab hba
        rw [ih hab hba]
      · have hdc : ¬ d = c := fun e => hcd e.symm
        simp only [str_le, if_neg hcd] at hab
        simp only [str_le, if_neg hdc] at hba
        have h1 : c < d := of_decide_eq_true hab
        have h2 : d < c := of_decide_eq_true hba
        exact absurd h2 (not_lt_of_gt h1)

/-! ### Parsing: well-formed tokens -/

/-- A segment string containing none of the separator characters the
parser splits on: dot, at-sign, equals sign. -/
def no_seps (s : Str) : Prop :=
  ∀ c ∈ s, ¬ c = '.' ∧ ¬ c = '@' ∧ ¬ c = '='

instance (s : Str) : Decidable (no_seps s) := by
  unfold no_seps
  infer_instance

/-- The string does not begin with a (Rust) whitespace character; `trim`
only removes whitespace runs at the ends of the whole token, so this is
the exact condition under which a leading segment survives unchanged. -/
def head_not_ws (s : Str) : Bool :=
  s.head?.all fun c => ! rust_is_whitespace c

/-- The string does not end with a (Rust) whitespace character. -/
def last_not_ws (s : Str) : Bool :=
  s.getLast?.all fun c => ! rust_is_whitespace c

theorem forall_mem_append_intro {P : Char → Prop} {a b : Str}
    (ha : ∀ c ∈ a, P c) (hb : ∀ c ∈ b, P c) : ∀ c ∈ a ++ b, P c := by
  intro c hc
  rcases List.mem_append.mp hc with h | h
  · exact ha c h
  · exact hb c h

theorem forall_mem_cons_intro {P : Char → Prop} {x : Char} {t : Str}
    (hx : P x) (ht : ∀ c ∈ t, P c) : ∀ c ∈ x :: t, P c := by
  intro c hc
  rcases List.mem_cons.mp hc with h | h
  · exact h ▸ hx
  · exact ht c h

theorem parse_well_formed (pub pkg ver plat : Str)
    (hpub : no_seps pub) (hpkg : no_seps pkg) (hver : no_seps ver)
    (hplatdot : '.' ∉ plat)
    (hh : head_not_ws pub = true) (hl : last_not_ws plat = true) :
    parse_ext_line (pub ++ '.' :: pkg ++ '@' :: ver ++ '=' :: plat) =
      some ⟨pub, pkg, some ver, some plat⟩ := by
  have hth : ∀ c, (pub ++ '.' :: pkg ++ '@' :: ver ++ '=' :: plat).head? = some c →
      rust_is_whitespace c = false := by
    cases pub with
    | nil =>
      intro c hc
      simp only [List.nil_append, List.cons_append, List.head?_cons,
        Option.some.injEq] at hc
      subst hc
      decide
    | cons x xs =>
      intro c hc
      simp only [List.cons_append, List.head?_cons, Option.some.injEq] at hc
      subst hc
      have hx : (! rust_is_whitespace x) = true := hh
      simpa using hx
  have htl : ∀ c, (pub ++ '.' :: pkg ++ '@' :: ver ++ '=' :: plat).getLast? = some c →
      rust_is_whitespace c = false := by
    intro c hc
    rw [List.getLast?_append_cons] at hc
    cases plat with
    | nil =>
      simp only [List.getLast?_singleton, Option.some.injEq] at hc
      subst hc
      decide
    | cons q qs =>
      rw [List.getLast?_cons_cons] at hc
      have hx : ((q :: qs).getLast?.all fun c => ! rust_is_whitespace c) = true := hl
      rw [hc] at hx
      simpa using hx
  have htrim : trim (pub ++ '.' :: pkg ++ '@' :: ver ++ '=' :: plat) =
      pub ++ '.' :: pkg ++ '@' :: ver ++ '=' :: plat := trim_eq_self_of_ends hth htl
  have hvsix : ends_with (pub ++ '.' :: pkg ++ '@' :: ver ++ '=' :: plat) vsix = false :=
    ends_with_vsix_false hplatdot
  have hstrip : strip_dot_vsix (pub ++ '.' :: pkg ++ '@' :: ver ++ '=' :: plat) =
      pub ++ '.' :: pkg ++ '@' :: ver ++ '=' :: plat := by
    unfold strip_dot_vsix
    rw [hvsix]
    simp
  have hne' : ∀ c ∈ pub ++ '.' :: pkg ++ '@' :: ver, ¬ c = '=' :=
    forall_mem_append_intro
      (forall_mem_append_intro (fun c h => (hpub c h).2.2)
        (forall_mem_cons_intro (by decide) (fun c h => (hpkg c h).2.2)))
      (forall_mem_cons_intro (by decide) (fun c h => (hver c h).2.2))
  have hne : '=' ∉ pub ++ '.' :: pkg ++ '@' :: ver := fun hm => hne' _ hm rfl
  have hs1 : strip_suffix (pub ++ '.' :: pkg ++ '@' :: ver ++ '=' :: plat) '=' =
      (pub ++ '.' :: pkg ++ '@' :: ver, some plat) :=
    strip_suffix_append plat hne
  have hna' : ∀ c ∈ pub ++ '.' :: pkg, ¬ c = '@' :=
    forall_mem_append_intro (fun c h => (hpub c h).2.1)
      (forall_mem_cons_intro (by decide) (fun c h => (hpkg c h).2.1))
  have hna : '@' ∉ pub ++ '.' :: pkg := fun hm => hna' _ hm rfl
  have hs2 : strip_suffix (pub ++ '.' :: pkg ++ '@' :: ver) '@' =
      (pub ++ '.' :: pkg, some ver) :=
    strip_suffix_append ver hna
  have hnd : '.' ∉ pub := fun hm => (hpub _ hm).1 rfl
  have hs3 : strip_suffix (pub ++ '.' :: pkg) '.' = (pub, some pkg) :=
    strip_suffix_append pkg hnd
  simp only [parse_ext_line, htrim, hstrip, hs1, hs2, hs3]

theorem mem_dedup_aux : ∀ {l : List Extension} {x prev : Extension},
    x ∈ dedup_aux prev l → x ∈ l := by
  intro l
  induction l with
  | nil =>
    intro x prev h
    simp [dedup_aux] at h
  | cons b rest ih =>
    intro x prev hx
    by_cases hb : b.name = prev.name
    · rw [dedup_aux, if_pos hb] at hx
      exact List.mem_cons_of_mem _ (ih hx)
    · rw [dedup_aux, if_neg hb] at hx
      rcases List.mem_cons.mp hx with h | h
      · exact h ▸ List.mem_cons_self _ _
      · exact List.mem_cons_of_mem _ (ih h)

theorem mem_dedup_by_key {x : Extension} : ∀ {l : List Extension},
    x ∈ dedup_by_key l → x ∈ l := by
  intro l
  cases l with
  | nil => simp [dedup_by_key]
  | cons a rest =>
    intro hx
    simp only [dedup_by_key] at hx
    rcases List.mem_cons.mp hx with h | h
    · exact h ▸ List.mem_cons_self _ _
    · exact List.mem_cons_of_mem _ (mem_dedup_aux h)

theorem parse_publisher_no_sep {s : Str} {e : Extension} (h : parse_ext_line s = some e) :
    '.' ∉ e.publisher ∧ '@' ∉ e.publisher ∧ '=' ∉ e.publisher := by
  simp only [parse_ext_line] at h
  split at h
  · exact absurd h (by simp)
  · injection h with h
    subst h
    refine ⟨?_, ?_, ?_⟩
    · exact not_mem_strip_suffix_fst _
    · intro hm
      exact not_mem_strip_suffix_fst _ (mem_strip_suffix_fst hm)
    · intro hm
      exact not_mem_strip_suffix_fst _ (mem_strip_suffix_fst (mem_strip_suffix_fst hm))

/-- C6 counterexample: the token " a.b@v=p" decomposes as pub.pkg@ver=plat
with pub = " a" (leading space), pkg = "b", ver = "v", plat = "p", all of
which contain none of the separator characters '.' '@' '='; yet parsing
then reconstructing yields "a.b@v=p", not the original: the parser trims
the publisher's leading whitespace, so the round-trip fails as claimed. -/
theorem C6_counterexample :
    ((" a".toList : Str) ++ '.' :: "b".toList ++ '@' :: "v".toList ++ '=' :: "p".toList =
        " a.b@v=p".toList) ∧
      no_seps (" a".toList) ∧ no_seps ("b".toList) ∧ no_seps ("v".toList) ∧
      no_seps ("p".toList) ∧
      (parse_ext_line (" a.b@v=p".toList)).map Extension.name =
        some ("a.b@v=p".toList) ∧
      ¬ ("a.b@v=p".toList = " a.b@v=p".toList) := by
  refine ⟨rfl, by decide, by decide, by decide, by decide, ?_, by decide⟩
  rfl

/-- C6 amended: for every inline specifier string of the form
pub.pkg@ver=plat whose segments contain none of the separator characters
dot, at-sign, equals sign, and where the publisher does not begin with a
whitespace character nor the platform end with one (the parser trims
whitespace only at the token's two ends), parsing with parse_ext_line and
rebuilding the canonical name with get_extension_name yields exactly the
original string; interior whitespace is preserved and round-trips. -/
theorem C6_amended_roundtrip (pub pkg ver plat : Str)
    (hpub : no_seps pub) (hpkg : no_seps pkg) (hver : no_seps ver)
    (hplat : no_seps plat)
    (hh : head_not_ws pub = true) (hl : last_not_ws plat = true) :
    (parse_ext_line (pub ++ '.' :: pkg ++ '@' :: ver ++ '=' :: plat)).map Extension.name =
      some (pub ++ '.' :: pkg ++ '@' :: ver ++ '=' :: plat) := by
  rw [parse_well_formed pub pkg ver plat hpub hpkg hver
    (fun hm => (hplat _ hm).1 rfl) hh hl]
  simp [Extension.name, get_extension_name]

theorem C6_amended_witness :
    (parse_ext_line ("a b.pkg@1-0=linux-x64".toList)).map Extension.name =
      some ("a b.pkg@1-0=linux-x64".toList) := by
  have h := C6_amended_roundtrip ("a b".toList) ("pkg".toList) ("1-0".toList)
    ("linux-x64".toList) (by decide) (by decide) (by decide) (by decide)
    (by decide) (by decide)
  exact h

/-- C4 counterexample: on the token a.b@v=c=d, which contains two equals
signs, the parser assigns the platform c=d (everything after the LEFTMOST
equals sign), not the segment d after the rightmost one, refuting the
claimed split from the right. -/
theorem C4_counterexample :
    (parse_ext_line ("a.b@v=c=d".toList)).map Extension.platform =
        some (some ("c=d".toList)) ∧
      ¬ ("c=d".toList = "d".toList) := by
  constructor
  · decide
  · decide

/-- C4 amended: parsing trims surrounding whitespace and strips a trailing
vsix suffix if present, then splits at the FIRST (leftmost) occurrence of
the equals sign to extract the platform — for a token with two equals
signs the platform is everything after the leftmost one — then splits the
remainder at the first at-sign for the version, then at the first dot for
publisher/package. -/
theorem C4_amended_leftmost_split (pub pkg ver p1 p2 : Str)
    (hpub : no_seps pub) (hpkg : no_seps pkg) (hver : no_seps ver)
    (hp1 : no_seps p1) (hp2 : no_seps p2)
    (hh : head_not_ws pub = true) (hl : last_not_ws p2 = true) :
    parse_ext_line (pub ++ '.' :: pkg ++ '@' :: ver ++ '=' :: (p1 ++ '=' :: p2)) =
      some ⟨pub, pkg, some ver, some (p1 ++ '=' :: p2)⟩ := by
  apply parse_well_formed pub pkg ver (p1 ++ '=' :: p2) hpub hpkg hver ?_ hh ?_
  · intro hm
    rcases List.mem_append.mp hm with h | h
    · exact (hp1 _ h).1 rfl
    · rcases List.mem_cons.mp h with h | h
      · exact absurd h (by decide)
      · exact (hp2 _ h).1 rfl
  · unfold last_not_ws
    rw [List.getLast?_append_cons]
    cases p2 with
    | nil => decide
    | cons q qs =>
      rw [List.getLast?_cons_cons]
      exact hl

theorem C4_amended_witness :
    parse_ext_line ("a.b@v=c=d".toList) =
      some ⟨"a".toList, "b".toList, some ("v".toList), some ("c=d".toList)⟩ := by
  have h := C4_amended_leftmost_split ("a".toList) ("b".toList) ("v".toList)
    ("c".toList) ("d".toList) (by decide) (by decide) (by decide) (by decide)
    (by decide) (by decide) (by decide)
  exact h

/-- C8: an inline token containing no dot (hence lacking a dot-separated
package segment) parses to no specifier, and list_extensions silently
drops it, continuing with the remaining tokens. -/
theorem C8_nodot_dropped (s : Str) (rest : List Str) (h : '.' ∉ s) :
    parse_ext_line s = none ∧ list_extensions (s :: rest) = list_extensions rest := by
  have h0 : '.' ∉ trim s := fun hm => h (mem_trim hm)
  have h1 : '.' ∉ strip_dot_vsix (trim s) := by
    unfold strip_dot_vsix
    split
    · intro hm
      exact h0 ((List.take_sublist _ _).mem hm)
    · exact h0
  have h2 : '.' ∉ (strip_suffix (strip_dot_vsix (trim s)) '=').1 :=
    fun hm => h1 (mem_strip_suffix_fst hm)
  have h3 : '.' ∉ (strip_suffix (strip_suffix (strip_dot_vsix (trim s)) '=').1 '@').1 :=
    fun hm => h2 (mem_strip_suffix_fst hm)
  have hp : parse_ext_line s = none := by
    simp only [parse_ext_line, strip_suffix_not_mem h3]
  refine ⟨hp, ?_⟩
  simp only [list_extensions, List.filterMap_cons, hp]

theorem C8_nodot_dropped_witness :
    parse_ext_line ("nodot".toList) = none ∧
      list_extensions ("nodot".toList :: ["a.b".toList]) = list_extensions ["a.b".toList] :=
  C8_nodot_dropped ("nodot".toList) ["a.b".toList] (by decide)

/-- C5 counterexample: the inline token .pkg is parsed and emitted by
list_extensions with an EMPTY publisher string, refuting the claim that
every emitted specifier has a non-empty publisher and package. -/
theorem C5_counterexample :
    list_extensions [".pkg".toList] =
        [⟨[], "pkg".toList, none, none⟩] ∧
      (⟨[], "pkg".toList, none, none⟩ : Extension).publisher = [] := by
  constructor
  · decide
  · rfl

/-- C5 amended: every specifier emitted by list_extensions has its package
field present, and its publisher contains none of the separator characters
dot, at-sign, equals sign; the publisher and package strings themselves
may be empty. -/
theorem C5_amended_publisher_no_sep (tokens : List Str) (e : Extension)
    (h : e ∈ list_extensions tokens) :
    '.' ∉ e.publisher ∧ '@' ∉ e.publisher ∧ '=' ∉ e.publisher := by
  simp only [list_extensions] at h
  have h1 := mem_dedup_by_key h
  rw [List.mem_insertionSort] at h1
  obtain ⟨s, hs, hp⟩ := List.mem_filterMap.mp h1
  exact parse_publisher_no_sep hp

theorem C5_amended_witness :
    '.' ∉ (Extension.mk [] ("pkg".toList) none none).publisher ∧
      '@' ∉ (Extension.mk [] ("pkg".toList) none none).publisher ∧
      '=' ∉ (Extension.mk [] ("pkg".toList) none none).publisher :=
  C5_amended_publisher_no_sep [".pkg".toList] ⟨[], "pkg".toList, none, none⟩ (by decide)

/-! ### Sortedness and deduplication of the parser output -/

instance : IsTotal Extension name_le :=
  ⟨fun a b => str_le_total a.name b.name⟩

instance : IsTrans Extension name_le :=
  ⟨fun _ _ _ hab hbc => str_le_trans hab hbc⟩

theorem dedup_aux_pairwise : ∀ {l : List Extension} {prev : Extension},
    List.Pairwise name_le (prev :: l) →
    List.Pairwise (fun a b => name_le a b ∧ a.name ≠ b.name) (prev :: dedup_aux prev l) := by
  intro l
  induction l with
  | nil =>
    intro prev _
    simp [dedup_aux]
  | cons b rest ih =>
    intro prev h
    rcases List.pairwise_cons.mp h with ⟨hprev, hbr⟩
    by_cases hb : b.name = prev.name
    · rw [dedup_aux, if_pos hb]
      apply ih
      apply List.pairwise_cons.mpr
      refine ⟨?_, (List.pairwise_cons.mp hbr).2⟩
      intro x hx
      exact hprev x (List.mem_cons_of_mem _ hx)
    · rw [dedup_aux, if_neg hb]
      have hrec := ih hbr
      apply List.pairwise_cons.mpr
      refine ⟨?_, hrec⟩
      intro x hx
      rcases List.mem_cons.mp hx with hxb | hxd
      · subst hxb
        exact ⟨hprev x (List.mem_cons_self _ _), fun e2 => hb e2.symm⟩
      · have hxrest : x ∈ rest := mem_dedup_aux hxd
        refine ⟨hprev x (List.mem_cons_of_mem _ hxrest), ?_⟩
        intro heq
        have hbx : name_le b x ∧ b.name ≠ x.name := (List.pairwise_cons.mp hrec).1 x hxd
        have h1 : str_le x.name b.name = true := by
          rw [← heq]
          exact hprev b (List.mem_cons_self _ _)
        exact hbx.2 (str_le_antisymm hbx.1 h1)

theorem dedup_by_key_pairwise {l : List Extension} (h : List.Pairwise name_le l) :
    List.Pairwise (fun a b => name_le a b ∧ a.name ≠ b.name) (dedup_by_key l) := by
  cases l with
  | nil => simp [dedup_by_key]
  | cons a rest =>
    simp only [dedup_by_key]
    exact dedup_aux_pairwise h

theorem dedup_aux_covers : ∀ {l : List Extension} (prev : Extension) {x : Extension},
    x ∈ l → ∃ y ∈ prev :: dedup_aux prev l, y.name = x.name := by
  intro l
  induction l with
  | nil =>
    intro prev x h
    simp at h
  | cons b rest ih =>
    intro prev x hx
    by_cases hb : b.name = prev.name
    · rw [dedup_aux, if_pos hb]
      rcases List.mem_cons.mp hx with h | h
      · refine ⟨prev, List.mem_cons_self _ _, ?_⟩
        rw [h]
        exact hb.symm
      · exact ih prev h
    · rw [dedup_aux, if_neg hb]
      rcases List.mem_cons.mp hx with h | h
      · refine ⟨b, List.mem_cons_of_mem _ (List.mem_cons_self _ _), ?_⟩
        rw [h]
      · obtain ⟨y, hy, hyn⟩ := ih b h
        exact ⟨y, List.mem_cons_of_mem _ hy, hyn⟩

theorem dedup_by_key_covers {l : List Extension} {x : Extension} (hx : x ∈ l) :
    ∃ y ∈ dedup_by_key l, y.name = x.name := by
  cases l with
  | nil => simp at hx
  | cons a rest =>
    simp only [dedup_by_key]
    rcases List.mem_cons.mp hx with h | h
    · refine ⟨a, List.mem_cons_self _ _, ?_⟩
      rw [h]
    · exact dedup_aux_covers a h

/-- C7: list_extensions output is sorted by canonical name, no two output
entries share a canonical name, and every parsed specifier still has a
representative with its canonical name in the output (duplicates collapse
to one entry rather than vanishing). -/
theorem C7_sorted_dedup (tokens : List Str) :
    List.Pairwise (fun a b => name_le a b ∧ a.name ≠ b.name) (list_extensions tokens) ∧
      ∀ x ∈ tokens.filterMap parse_ext_line,
        ∃ y ∈ list_extensions tokens, y.name = x.name := by
  constructor
  · simp only [list_extensions]
    exact dedup_by_key_pairwise (List.sorted_insertionSort name_le _)
  · intro x hx
    simp only [list_extensions]
    have hs : x ∈ List.insertionSort name_le (tokens.filterMap parse_ext_line) := by
      rw [List.mem_insertionSort]
      exact hx
    exact dedup_by_key_covers hs

/-! ### The resolver scan -/

/-- Whether a version entry satisfies the specifier's version constraint:
the entry must carry a version string, equal to the pinned one when a
version is pinned. -/
def version_matches (sv : Option Str) (e : VerEntry) : Bool :=
  match e.version, sv with
  | none, _ => false
  | some _, none => true
  | some v2, some v1 => decide (v1 = v2)

/-- Whether a version entry passes the platform step without being
skipped (as the code behaves, not as the spec describes it). -/
def platform_matches (sp : Option Str) (e : VerEntry) : Bool :=
  match sp, e.targetPlatform with
  | some p1, some p2 => decide (p1 = p2)
  | none, some _ => false
  | _, none => true

/-- An entry the scanning loop returns on. -/
def accepts (sv sp : Option Str) (e : VerEntry) : Bool :=
  version_matches sv e && platform_matches sp e

theorem step_of_accepts {sv sp : Option Str} {e : VerEntry}
    (h : accepts sv sp e = true) :
    ∃ v, e.version = some v ∧ step_version sv e.version = some v ∧
      step_platform sp e.targetPlatform = StepP.accept e.targetPlatform := by
  obtain ⟨ev, tp⟩ := e
  simp only [accepts, version_matches, platform_matches, Bool.and_eq_true] at h
  cases ev with
  | none =>
    exfalso
    cases sv <;> simp at h
  | some v2 =>
    refine ⟨v2, rfl, ?_, ?_⟩
    · cases sv with
      | none => simp [step_version]
      | some v1 =>
        have hveq : v1 = v2 := of_decide_eq_true (by simpa using h.1)
        simp [step_version, hveq]
    · cases tp with
      | none => cases sp <;> simp [step_platform]
      | some p2 =>
        cases sp with
        | none =>
          exfalso
          simp at h
        | some p1 =>
          have hpe : p1 = p2 := of_decide_eq_true (by simpa using h.2)
          simp [step_platform, hpe]

theorem skip_of_not_accepts {sv sp : Option Str} {e : VerEntry}
    (h : accepts sv sp e = false) :
    step_version sv e.version = none ∨
      (∃ v, step_version sv e.version = some v ∧
        step_platform sp e.targetPlatform = StepP.skip) := by
  obtain ⟨ev, tp⟩ := e
  simp only [accepts, version_matches, platform_matches, Bool.and_eq_false_iff] at h
  cases ev with
  | none =>
    left
    cases sv <;> simp [step_version]
  | some v2 =>
    cases sv with
    | none =>
      right
      refine ⟨v2, by simp [step_version], ?_⟩
      rcases h with h | h
      · simp at h
      · cases tp with
        | none => simp at h
        | some p2 =>
          cases sp with
          | none => simp [step_platform]
          | some p1 =>
            have hpe : ¬ p1 = p2 := by simpa using h
            simp [step_platform, hpe]
    | some v1 =>
      by_cases hvv : v1 = v2
      · right
        refine ⟨v2, by simp [step_version, hvv], ?_⟩
        rcases h with h | h
        · simp [hvv] at h
        · cases tp with
          | none => simp at h
          | some p2 =>
            cases sp with
            | none => simp [step_platform]
            | some p1 =>
              have hpe : ¬ p1 = p2 := by simpa using h
              simp [step_platform, hpe]
      · left
        simp [step_version, hvv]

theorem scan_versions_eq_find (sv sp : Option Str) : ∀ l : List VerEntry,
    scan_versions sv sp l =
      match l.find? (accepts sv sp) with
      | none => (none, none)
      | some e => (e.version, e.targetPlatform) := by
  intro l
  induction l with
  | nil => rfl
  | cons e rest ih =>
    by_cases ha : accepts sv sp e = true
    · rw [List.find?_cons_of_pos _ ha]
      obtain ⟨v, hv, hsv, hsp⟩ := step_of_accepts ha
      rw [scan_versions, hsv, hsp]
      simp [hv]
    · have ha' : accepts sv sp e = false := by
        cases hb : accepts sv sp e
        · rfl
        · exact absurd hb ha
      rw [List.find?_cons_of_neg _ (by simp [ha'])]
      rcases skip_of_not_accepts ha' with h | ⟨v, hsv, hsp⟩
      · rw [scan_versions, h]
        exact ih
      · rw [scan_versions, hsv, hsp]
        exact ih

/-- C1 counterexample: with no pinned platform and no pinned version, a
first entry that matches on version but carries a targetPlatform is NOT
accepted; the scan instead returns the second entry (version 2.0, no
platform), refuting "the first version-matching entry is accepted
regardless of whether it carries a targetPlatform". -/
theorem C1_counterexample :
    scan_versions none none
        [⟨some ("1.0".toList), some ("linux-x64".toList)⟩,
         ⟨some ("2.0".toList), none⟩] =
      (some ("2.0".toList), none) ∧
    ¬ ("2.0".toList = "1.0".toList) := by
  constructor
  · rfl
  · decide

/-- C1 amended: when the specifier pins no platform, the scan accepts the
first entry that matches the version constraint AND lacks a
targetPlatform, returning its version with no platform; version-matching
entries that carry a targetPlatform are skipped, as are entries failing
the version constraint. -/
theorem C1_amended_no_platform (sv : Option Str) (entries : List VerEntry) :
    scan_versions sv none entries =
      match entries.find?
          (fun e => version_matches sv e && decide (e.targetPlatform = none)) with
      | none => (none, none)
      | some e => (e.version, none) := by
  have h := scan_versions_eq_find sv none entries
  have hfun : accepts sv none =
      (fun e => version_matches sv e && decide (e.targetPlatform = none)) := by
    funext e
    unfold accepts platform_matches
    cases htp : e.targetPlatform <;> simp [htp]
  rw [h, hfun]
  cases hf : entries.find?
      (fun e => version_matches sv e && decide (e.targetPlatform = none)) with
  | none => rfl
  | some e =>
    have hpe := List.find?_some hf
    have htp : e.targetPlatform = none := by
      rcases Bool.and_eq_true _ _ |>.mp hpe with ⟨_, h2⟩
      exact of_decide_eq_true h2
    simp [htp]

/-- C2 counterexample: with version 1.0 and platform linux-x64 pinned, a
sole entry carrying version 1.0 and NO targetPlatform is selected (the
scan returns its version), refuting "an entry lacking targetPlatform is
skipped and never selected when a platform is pinned". -/
theorem C2_counterexample :
    scan_versions (some ("1.0".toList)) (some ("linux-x64".toList))
        [⟨some ("1.0".toList), none⟩] =
      (some ("1.0".toList), none) := by
  rfl

/-- C2 amended: when the specifier pins a platform, the scan accepts the
first version-matching entry whose targetPlatform equals the pinned one
exactly OR which lacks a targetPlatform (returned with no platform);
entries with a different targetPlatform are skipped; hence the returned
platform is always the pinned one or none. -/
theorem C2_amended_pinned_platform (sv : Option Str) (p : Str) (entries : List VerEntry) :
    (scan_versions sv (some p) entries =
      match entries.find? (fun e => version_matches sv e &&
          (decide (e.targetPlatform = some p) || decide (e.targetPlatform = none))) with
      | none => (none, none)
      | some e => (e.version, e.targetPlatform)) ∧
    (∀ v q, scan_versions sv (some p) entries = (some v, q) →
      q = some p ∨ q = none) := by
  have h := scan_versions_eq_find sv (some p) entries
  have hfun : accepts sv (some p) =
      (fun e => version_matches sv e &&
        (decide (e.targetPlatform = some p) || decide (e.targetPlatform = none))) := by
    funext e
    unfold accepts platform_matches
    cases htp : e.targetPlatform with
    | none => simp [htp]
    | some p2 =>
      by_cases hp : p = p2
      · subst hp
        simp [htp]
      · have hp' : ¬ p2 = p := fun e2 => hp e2.symm
        simp [htp, hp, hp']
  constructor
  · rw [h, hfun]
  · intro v q hvq
    rw [h, hfun] at hvq
    cases hf : entries.find? (fun e => version_matches sv e &&
        (decide (e.targetPlatform = some p) || decide (e.targetPlatform = none))) with
    | none =>
      rw [hf] at hvq
      simp at hvq
    | some e =>
      rw [hf] at hvq
      have hpe := List.find?_some hf
      rcases Bool.and_eq_true _ _ |>.mp hpe with ⟨_, h2⟩
      rcases Bool.or_eq_true _ _ |>.mp h2 with h3 | h3
      · left
        have : e.targetPlatform = some p := of_decide_eq_true h3
        have hq : q = e.targetPlatform := (Prod.mk.injEq _ _ _ _ ▸ hvq).2.symm
        rw [hq, this]
      · right
        have : e.targetPlatform = none := of_decide_eq_true h3
        have hq : q = e.targetPlatform := (Prod.mk.injEq _ _ _ _ ▸ hvq).2.symm
        rw [hq, this]

/-- C3 counterexample: a specifier with no pinned version, cached mode on
and the destination already present still performs a marketplace query
(the effect trace is nonempty), refuting "performs no network call". -/
theorem C3_counterexample :
    Extension.download ⟨"a".toList, "b".toList, none, none⟩ ("d".toList) (some true)
        (some [⟨some ("1.0".toList), none⟩]) (fun _ => true) true =
      (Except.ok false, [NetEffect.query]) ∧
    [NetEffect.query] ≠ ([] : List NetEffect) := by
  constructor
  · rfl
  · simp

/-- C3 amended: when cached mode is active (explicitly or by default) and
the destination file exists, download never fetches the artifact, and the
Ok false ("skipped") outcome is distinguishable from Ok true
("downloaded").  Exactly: a specifier passing the platform check with a
pinned version performs no network call and returns Ok false; one with an
unpinned version still issues the marketplace version query first — if
the query succeeds the call returns Ok false, if it fails the call
returns that error (despite the cache hit); a specifier with an invalid
pinned platform errors before any network or filesystem interaction. -/
theorem C3_amended_cached_skip (e : Extension) (download_dir : Str) (cached? : Option Bool)
    (versions : Option (List VerEntry)) (fs_exists : Str → Bool) (fetchOk : Bool)
    (hcached : cached? = none ∨ cached? = some true)
    (hx : fs_exists (output_file_of download_dir e.name) = true) :
    (check_platform e = true → ∀ v, e.version = some v →
        e.download download_dir cached? versions fs_exists fetchOk = (Except.ok false, [])) ∧
      (check_platform e = true → e.version = none →
        (e.download download_dir cached? versions fs_exists fetchOk).2 = [NetEffect.query] ∧
        (∀ v p, query_version e versions = Except.ok (some v, p) →
          e.download download_dir cached? versions fs_exists fetchOk =
            (Except.ok false, [NetEffect.query])) ∧
        (∀ m, query_version e versions = Except.error m →
          e.download download_dir cached? versions fs_exists fetchOk =
            (Except.error m, [NetEffect.query]))) ∧
      (check_platform e = false →
        ∃ m, e.download download_dir cached? versions fs_exists fetchOk =
          (Except.error m, [])) ∧
      (Except.ok false ≠ (Except.ok true : Except Str Bool)) := by
  rcases hcached with hs | hs <;> subst hs <;>
    refine ⟨?_, ?_, ?_, by simp⟩
  · intro hcp v hv
    simp only [Extension.download, hcp, hv, hx]
    simp
  · intro hcp hv
    refine ⟨?_, ?_, ?_⟩
    · simp only [Extension.download, hcp, hv, hx]
      cases hq : query_version e versions with
      | error m => simp [hq]
      | ok vp =>
        obtain ⟨v?, p⟩ := vp
        cases v? with
        | some v => simp [hq, hx]
        | none => simp [hq]
    · intro v p hq
      simp only [Extension.download, hcp, hv, hx, hq]
      simp [hx]
    · intro m hq
      simp only [Extension.download, hcp, hv, hx, hq]
      simp
  · intro hcp
    refine ⟨"invalid platform".toList, ?_⟩
    simp only [Extension.download, hcp]
    simp
  · intro hcp v hv
    simp only [Extension.download, hcp, hv, hx]
    simp
  · intro hcp hv
    refine ⟨?_, ?_, ?_⟩
    · simp only [Extension.download, hcp, hv, hx]
      cases hq : query_version e versions with
      | error m => simp [hq]
      | ok vp =>
        obtain ⟨v?, p⟩ := vp
        cases v? with
        | some v => simp [hq, hx]
        | none => simp [hq]
    · intro v p hq
      simp only [Extension.download, hcp, hv, hx, hq]
      simp [hx]
    · intro m hq
      simp only [Extension.download, hcp, hv, hx, hq]
      simp
  · intro hcp
    refine ⟨"invalid platform".toList, ?_⟩
    simp only [Extension.download, hcp]
    simp

theorem C3_amended_witness :
    Extension.download ⟨"a".toList, "b".toList, some ("1".toList), none⟩ ("d".toList) none
        none (fun _ => true) true = (Except.ok false, []) :=
  (C3_amended_cached_skip ⟨"a".toList, "b".toList, some ("1".toList), none⟩ ("d".toList)
    none none (fun _ => true) true (Or.inl rfl) rfl).1 rfl ("1".toList) rfl

/-- C9: prepare_release_dir targets directory output_dir/bin/commit; when
that directory already exists the first action deletes it entirely; every
extraction targets that directory and the given archive; dispatch is by
suffix (.tar.gz to the tar-gzip extractor, else .zip to the zip
extractor); an unrecognized suffix errors without invoking an extractor. -/
theorem C9_prepare_release_dir (commit archive_file output_dir : Str)
    (dirExists extractOk : Bool) :
    (dirExists = true →
      (prepare_release_dir commit archive_file output_dir dirExists extractOk).2.head? =
        some (FsAction.remove_dir_all [output_dir, "bin".toList, commit])) ∧
    (∀ a d, (FsAction.extract_tgz a d ∈
          (prepare_release_dir commit archive_file output_dir dirExists extractOk).2 ∨
        FsAction.extract_zip a d ∈
          (prepare_release_dir commit archive_file output_dir dirExists extractOk).2) →
      a = archive_file ∧ d = [output_dir, "bin".toList, commit]) ∧
    (ends_with archive_file (".tar.gz".toList) = true →
      FsAction.extract_tgz archive_file [output_dir, "bin".toList, commit] ∈
        (prepare_release_dir commit archive_file output_dir dirExists extractOk).2) ∧
    (ends_with archive_file (".tar.gz".toList) = false →
      ends_with archive_file (".zip".toList) = true →
      FsAction.extract_zip archive_file [output_dir, "bin".toList, commit] ∈
        (prepare_release_dir commit archive_file output_dir dirExists extractOk).2) ∧
    (ends_with archive_file (".tar.gz".toList) = false →
      ends_with archive_file (".zip".toList) = false →
      (prepare_release_dir commit archive_file output_dir dirExists extractOk).1 =
          Except.error ("unable to extract file ".toList ++ archive_file) ∧
        ∀ a d, FsAction.extract_tgz a d ∉
            (prepare_release_dir commit archive_file output_dir dirExists extractOk).2 ∧
          FsAction.extract_zip a d ∉
            (prepare_release_dir commit archive_file output_dir dirExists extractOk).2) := by
  have e1 : (".tar.gz".toList : Str) = ['.', 't', 'a', 'r', '.', 'g', 'z'] := rfl
  have e2 : (".zip".toList : Str) = ['.', 'z', 'i', 'p'] := rfl
  rw [e1, e2]
  by_cases h1 : ends_with archive_file ['.', 't', 'a', 'r', '.', 'g', 'z'] = true
  · refine ⟨?_, ?_, ?_, ?_, ?_⟩
    · intro hd
      subst hd
      simp [prepare_release_dir, h1]
    · intro a d h
      cases hd : dirExists <;>
        rcases h with h | h <;>
        simp [prepare_release_dir, h1, hd] at h <;>
        simp [h]
    · intro _
      cases hd : dirExists <;> simp [prepare_release_dir, h1, hd]
    · intro hc _
      rw [h1] at hc
      exact absurd hc (by simp)
    · intro hc _
      rw [h1] at hc
      exact absurd hc (by simp)
  · have h1' : ends_with archive_file ['.', 't', 'a', 'r', '.', 'g', 'z'] = false := by
      cases hb : ends_with archive_file ['.', 't', 'a', 'r', '.', 'g', 'z']
      · rfl
      · exact absurd hb h1
    by_cases h2 : ends_with archive_file ['.', 'z', 'i', 'p'] = true
    · refine ⟨?_, ?_, ?_, ?_, ?_⟩
      · intro hd
        subst hd
        simp [prepare_release_dir, h1', h2]
      · intro a d h
        cases hd : dirExists <;>
          rcases h with h | h <;>
          simp [prepare_release_dir, h1', h2, hd] at h <;>
          simp [h]
      · intro hc
        rw [h1'] at hc
        exact absurd hc (by simp)
      · intro _ _
        cases hd : dirExists <;> simp [prepare_release_dir, h1', h2, hd]
      · intro _ hc
        rw [h2] at hc
        exact absurd hc (by simp)
    · have h2' : ends_with archive_file ['.', 'z', 'i', 'p'] = false := by
        cases hb : ends_with archive_file ['.', 'z', 'i', 'p']
        · rfl
        · exact absurd hb h2
      refine ⟨?_, ?_, ?_, ?_, ?_⟩
      · intro hd
        subst hd
        simp [prepare_release_dir, h1', h2']
      · intro a d h
        cases hd : dirExists <;>
          rcases h with h | h <;>
          simp [prepare_release_dir, h1', h2', hd] at h
      · intro hc
        rw [h1'] at hc
        exact absurd hc (by simp)
      · intro _ hc
        rw [h2'] at hc
        exact absurd hc (by simp)
      · intro _ _
        refine ⟨?_, ?_⟩
        · cases hd : dirExists <;> simp [prepare_release_dir, h1', h2', hd]
        · intro a d
          cases hd : dirExists <;>
            constructor <;>
            simp [prepare_release_dir, h1', h2', hd]

theorem C9_witness :
    (prepare_release_dir ("c".toList) ("a.tar.gz".toList) ("o".toList) true true).2.head? =
        some (FsAction.remove_dir_all ["o".toList, "bin".toList, "c".toList]) ∧
      FsAction.extract_tgz ("a.tar.gz".toList) ["o".toList, "bin".toList, "c".toList] ∈
        (prepare_release_dir ("c".toList) ("a.tar.gz".toList) ("o".toList) true true).2 := by
  constructor
  · exact (C9_prepare_release_dir ("c".toList) ("a.tar.gz".toList) ("o".toList)
      true true).1 rfl
  · exact (C9_prepare_release_dir ("c".toList) ("a.tar.gz".toList) ("o".toList)
      true true).2.2.1 (by decide)

/-- C10: supplied platform/arch overrides are returned verbatim; without
overrides the host identifiers are mapped through the fixed tables
(macos to darwin, windows to win32, linux to linux, alpine to alpine,
x86_64 to x64, aarch64 to arm64, arm to armhf), identifiers absent from a
table pass through unchanged; a macos/aarch64 host with no overrides
yields darwin/arm64 and the server download prefix server-darwin. -/
theorem C10_platform_info :
    (∀ p a os ar, get_platform_info (some p) (some a) os ar = (p, a)) ∧
    (map_through valid_map_p ("macos".toList) = "darwin".toList ∧
      map_through valid_map_p ("windows".toList) = "win32".toList ∧
      map_through valid_map_p ("linux".toList) = "linux".toList ∧
      map_through valid_map_p ("alpine".toList) = "alpine".toList ∧
      map_through valid_map_a ("x86_64".toList) = "x64".toList ∧
      map_through valid_map_a ("aarch64".toList) = "arm64".toList ∧
      map_through valid_map_a ("arm".toList) = "armhf".toList) ∧
    (∀ os ar, get_platform_info none none os ar =
      (map_through valid_map_p os, map_through valid_map_a ar)) ∧
    (∀ os, (∀ kv ∈ valid_map_p, kv.1 ≠ os) → map_through valid_map_p os = os) ∧
    (∀ ar, (∀ kv ∈ valid_map_a, kv.1 ≠ ar) → map_through valid_map_a ar = ar) ∧
    (get_platform_info none none ("macos".toList) ("aarch64".toList) =
        ("darwin".toList, "arm64".toList) ∧
      server_prefix_of ("darwin".toList) = "server-darwin".toList) := by
  refine ⟨?_, by decide, ?_, ?_, ?_, by decide, by decide⟩
  · intro p a os ar
    rfl
  · intro os ar
    rfl
  · intro os h
    have hf : valid_map_p.find? (fun kv => decide (kv.1 = os)) = none := by
      rw [List.find?_eq_none]
      intro kv hkv
      simp [h kv hkv]
    unfold map_through
    rw [hf]
  · intro ar h
    have hf : valid_map_a.find? (fun kv => decide (kv.1 = ar)) = none := by
      rw [List.find?_eq_none]
      intro kv hkv
      simp [h kv hkv]
    unfold map_through
    rw [hf]

theorem C10_witness :
    map_through valid_map_p ("plan9".toList) = "plan9".toList :=
  C10_platform_info.2.2.2.1 ("plan9".toList) (by decide)

theorem C1_amended_witness :
    scan_versions none none
        [⟨some ("1.0".toList), some ("linux-x64".toList)⟩, ⟨some ("2.0".toList), none⟩] =
      match ([⟨some ("1.0".toList), some ("linux-x64".toList)⟩,
              ⟨some ("2.0".toList), none⟩] : List VerEntry).find?
          (fun e => version_matches none e && decide (e.targetPlatform = none)) with
      | none => (none, none)
      | some e => (e.version, none) :=
  C1_amended_no_platform none
    [⟨some ("1.0".toList), some ("linux-x64".toList)⟩, ⟨some ("2.0".toList), none⟩]

theorem C2_amended_witness :
    (some ("linux-x64".toList) : Option Str) = some ("linux-x64".toList) ∨
      (some ("linux-x64".toList) : Option Str) = none :=
  (C2_amended_pinned_platform (some ("1.0".toList)) ("linux-x64".toList)
      [⟨some ("1.0".toList), some ("linux-x64".toList)⟩]).2
    ("1.0".toList) (some ("linux-x64".toList)) rfl

theorem C7_witness :
    ∃ y ∈ list_extensions ["b.c".toList, "a.b".toList, "a.b".toList],
      y.name = (Extension.mk ("a".toList) ("b".toList) none none).name :=
  (C7_sorted_dedup ["b.c".toList, "a.b".toList, "a.b".toList]).2
    ⟨"a".toList, "b".toList, none, none⟩ (by decide)
